import Mathlib

/-!
# Checksum combination (`crc64_combine.go`)

A shallow embedding of `CombineAdler32` and `CombineCRC64` together with the
GF(2) matrix helpers `matrixMult` and `matrixSquare`.

Conventions of the embedding

* `uint32` / `uint64` values are natural numbers; every operation of the source
  that can leave the word (addition, subtraction, multiplication, left shift)
  is followed by an explicit reduction modulo `2 ^ 32` or `2 ^ 64`.
* `len2 : int64` is an integer; the `panic` of the source is `Except.error`.
* A `[64]uint64` array is a list of rows, read with `List.getD _ _ 0`.
* Loops are structural recursions on the number of iterations still allowed.
-/

namespace HashMerge

/-! ## Machine words -/

/-- The modulus of `uint32` arithmetic. -/
def word32 : Nat := 2 ^ 32

/-- The modulus of `uint64` arithmetic. -/
def word64 : Nat := 2 ^ 64

/-- Wrapping `uint32` addition. -/
def add32 (a b : Nat) : Nat := (a + b) % word32

/-- Wrapping `uint32` subtraction. -/
def sub32 (a b : Nat) : Nat := (a + word32 - b % word32) % word32

/-- Wrapping `uint32` multiplication. -/
def mul32 (a b : Nat) : Nat := (a * b) % word32

/-- Wrapping `uint32` left shift. -/
def shl32 (a s : Nat) : Nat := (a <<< s) % word32

/-- Wrapping `uint64` left shift. -/
def shl64 (a s : Nat) : Nat := (a <<< s) % word64

/-- The message of the `panic` raised by both combine functions. -/
def negativeLength : String := "hashmerge: negative length"

/-! ## `CombineAdler32` -/

/-- The constant `mod` of `CombineAdler32`. -/
def adlerMod : Nat := 65521

/-- The value `rem = uint32(len2 % mod)`; Go's `%` truncates towards zero. -/
def adlerRem (len2 : Int) : Nat := (Int.tmod len2 (adlerMod : Int)).toNat % word32

/-- The value of `sum1` after `sum1 += (adler2 & 0xffff) + mod - 1`. -/
def adlerSum1Raw (adler1 adler2 : Nat) : Nat :=
  add32 (adler1 &&& 0xffff) (sub32 (add32 (adler2 &&& 0xffff) adlerMod) 1)

/-- The value of `sum2` after
`sum2 = rem * sum1; sum2 %= mod; sum2 += (adler1 >> 16) + (adler2 >> 16) + mod - rem`. -/
def adlerSum2Raw (adler1 adler2 : Nat) (len2 : Int) : Nat :=
  add32 (mul32 (adlerRem len2) (adler1 &&& 0xffff) % adlerMod)
    (sub32 (add32 (add32 (adler1 >>> 16) (adler2 >>> 16)) adlerMod) (adlerRem len2))

/-- The two statements `if sum1 >= mod { sum1 -= mod }`. -/
def adlerNorm1 (sum1 : Nat) : Nat :=
  let sum1 := if sum1 ≥ adlerMod then sub32 sum1 adlerMod else sum1
  if sum1 ≥ adlerMod then sub32 sum1 adlerMod else sum1

/-- The statements `if sum2 >= mod<<1 { sum2 -= mod << 1 }` and
`if sum2 >= mod { sum2 -= mod }`. -/
def adlerNorm2 (sum2 : Nat) : Nat :=
  let sum2 := if sum2 ≥ adlerMod <<< 1 then sub32 sum2 (adlerMod <<< 1) else sum2
  if sum2 ≥ adlerMod then sub32 sum2 adlerMod else sum2

/-- The value of `sum1` at the `return` of `CombineAdler32`. -/
def adlerSum1 (adler1 adler2 : Nat) : Nat := adlerNorm1 (adlerSum1Raw adler1 adler2)

/-- The value of `sum2` at the `return` of `CombineAdler32`. -/
def adlerSum2 (adler1 adler2 : Nat) (len2 : Int) : Nat :=
  adlerNorm2 (adlerSum2Raw adler1 adler2 len2)

/-- The function `CombineAdler32(adler1, adler2 uint32, len2 int64) uint32`. -/
def CombineAdler32 (adler1 adler2 : Nat) (len2 : Int) : Except String Nat :=
  if len2 < 0 then
    Except.error negativeLength
  else
    Except.ok (adlerSum1 adler1 adler2 ||| shl32 (adlerSum2 adler1 adler2 len2) 16)

/-! ## `CombineCRC64` -/

/-- The loop of the closure `matrixMult`:
`for n := 0; n < 64 && vec > 0; n++ { if vec&1 > 0 { sum ^= mat[n] }; vec >>= 1 }`,
started at index `n` with `k` iterations allowed. -/
def matrixMultLoop (mat : List Nat) : Nat → Nat → Nat → Nat → Nat
  | 0, _, _, sum => sum
  | k + 1, n, vec, sum =>
    if n < 64 ∧ vec > 0 then
      matrixMultLoop mat k (n + 1) (vec >>> 1)
        (if vec &&& 1 > 0 then sum ^^^ mat.getD n 0 else sum)
    else
      sum

/-- The closure `matrixMult(mat *[64]uint64, vec uint64) uint64`. -/
def matrixMult (mat : List Nat) (vec : Nat) : Nat :=
  matrixMultLoop mat 64 0 vec 0

/-- The closure `matrixSquare(square, mat *[64]uint64)`, returning `square`. -/
def matrixSquare (mat : List Nat) : List Nat :=
  (List.range 64).map fun n => matrixMult mat (mat.getD n 0)

/-- The loop `for n := 1; n < 64; n++ { odd[n] = row; row <<= 1 }`: the next `k` rows. -/
def shiftRows : Nat → Nat → List Nat
  | 0, _ => []
  | k + 1, row => row :: shiftRows k (shl64 row 1)

/-- The operator for one zero bit: `odd[0] = poly` followed by the shift rows. -/
def zeroBitOperator (poly : Nat) : List Nat :=
  poly :: shiftRows 63 1

/-- The main `for` loop of `CombineCRC64` with `fuel` passes through its body allowed;
`none` when the passes are used up before a `break`. -/
def combineLoop : Nat → List Nat → List Nat → Nat → Nat → Option Nat
  | 0, _, _, _, _ => none
  | fuel + 1, _, odd, crc1, len2 =>
    let even := matrixSquare odd
    let crc1 := if len2 &&& 1 > 0 then matrixMult even crc1 else crc1
    let len2 := len2 >>> 1
    if len2 = 0 then
      some crc1
    else
      let odd := matrixSquare even
      let crc1 := if len2 &&& 1 > 0 then matrixMult odd crc1 else crc1
      let len2 := len2 >>> 1
      if len2 = 0 then
        some crc1
      else
        combineLoop fuel even odd crc1 len2

/-- The function `CombineCRC64(poly, crc1, crc2 uint64, len2 int64) uint64`.
Past the guard `len2` is not negative and is carried as a natural number; an `int64`
has at most 63 value bits, so 32 passes through the loop body always reach a `break`. -/
def CombineCRC64 (poly crc1 crc2 : Nat) (len2 : Int) : Except String Nat :=
  if len2 < 0 then
    Except.error negativeLength
  else
    let odd := zeroBitOperator poly
    let even := matrixSquare odd
    let odd := matrixSquare even
    match combineLoop 32 even odd crc1 len2.toNat with
    | some crc1 => Except.ok (crc1 ^^^ crc2)
    | none => Except.error "hashmerge: loop bound exceeded"

/-- The constant `crc64.ECMA`. -/
def ECMA : Nat := 0xC96C5795D7870F42

/-- The function `crc64_combine(crc1, crc2 uint64, len2 int64) uint64`. -/
def crc64_combine (crc1 crc2 : Nat) (len2 : Int) : Except String Nat :=
  CombineCRC64 ECMA crc1 crc2 len2

/-! ## Reference checksums

The checksums the combine functions are compared with. They are not functions of
`crc64_combine.go`: the source calls `hash/crc64.Checksum` in `TestCombineCRC64` and names
`adler32.Checksum` in the doc comment of `CombineAdler32`, both of the Go standard library.
The definitions below are the bit-serial CRC-64 and the byte-wise Adler-32 these compute;
`crc64Checksum_golden` and `adler32Checksum_golden` evaluate them on known vectors. -/

/-- One zero bit clocked into a reflected CRC register:
`(v >> 1) XOR (poly if bit 0 of v is set, else 0)`. -/
def crcStep (poly v : Nat) : Nat :=
  (v >>> 1) ^^^ (if v % 2 = 1 then poly else 0)

/-- One message byte clocked into the register, bit by bit. -/
def crcByte (poly crc b : Nat) : Nat :=
  (crcStep poly)^[8] (crc ^^^ b)

/-- The register after all bytes of `data`, started from `crc`. -/
def crcUpdate (poly crc : Nat) (data : List Nat) : Nat :=
  data.foldl (crcByte poly) crc

/-- The CRC-64 checksum: register initialised to all ones, complemented at the end. -/
def crc64Checksum (poly : Nat) (data : List Nat) : Nat :=
  crcUpdate poly (word64 - 1) data ^^^ (word64 - 1)

/-- One byte of Adler-32 on the pair of running sums. -/
def adlerByte (s : Nat × Nat) (b : Nat) : Nat × Nat :=
  ((s.1 + b) % adlerMod, (s.2 + (s.1 + b) % adlerMod) % adlerMod)

/-- The pair of running sums after all bytes of `data`, started from `s`. -/
def adlerUpdate (s : Nat × Nat) (data : List Nat) : Nat × Nat :=
  data.foldl adlerByte s

/-- The Adler-32 checksum: low half `1 + sum of bytes`, high half the sum of the running
low halves, both modulo 65521. -/
def adler32Checksum (data : List Nat) : Nat :=
  (adlerUpdate (1, 0) data).1 ||| ((adlerUpdate (1, 0) data).2 <<< 16)

/-- The sum of `(number of bytes from this one to the end) * byte` over `data`: the
contribution of the bytes themselves to the second running sum of Adler-32. -/
def weightedSum : List Nat → Nat
  | [] => 0
  | b :: bs => (bs.length + 1) * b + weightedSum bs

/-- The matrix-vector product without the early exit: the XOR of the rows
`mat[n], …, mat[n + k - 1]` selected by the low `k` bits of `vec`. -/
def xorRows (mat : List Nat) : Nat → Nat → Nat → Nat
  | 0, _, _ => 0
  | k + 1, n, vec =>
    (if vec % 2 = 1 then mat.getD n 0 else 0) ^^^ xorRows mat k (n + 1) (vec / 2)

/-- The full matrix-vector product in the words of the specification: the XOR of `mat[i]`
over all `i` in `0..63` such that bit `i` of `vec` is set. -/
def fullProduct (mat : List Nat) (vec : Nat) : Nat :=
  (List.range 64).foldl (fun acc i => if vec.testBit i then acc ^^^ mat.getD i 0 else acc) 0

/-- The main `for` loop of `CombineCRC64` (as `combineLoop`) with two counters added: the
rounds, one for every `matrixSquare` followed by the test of a bit of `len2` and the shift,
and the applications of `matrixMult` to `crc1`. It returns `crc1` and the two counters. -/
def combineLoopCount :
    Nat → List Nat → List Nat → Nat → Nat → Nat → Nat → Option (Nat × Nat × Nat)
  | 0, _, _, _, _, _, _ => none
  | fuel + 1, _, odd, crc1, len2, rounds, applied =>
    let even := matrixSquare odd
    let rounds := rounds + 1
    let applied := if len2 &&& 1 > 0 then applied + 1 else applied
    let crc1 := if len2 &&& 1 > 0 then matrixMult even crc1 else crc1
    let len2 := len2 >>> 1
    if len2 = 0 then
      some (crc1, rounds, applied)
    else
      let odd := matrixSquare even
      let rounds := rounds + 1
      let applied := if len2 &&& 1 > 0 then applied + 1 else applied
      let crc1 := if len2 &&& 1 > 0 then matrixMult odd crc1 else crc1
      let len2 := len2 >>> 1
      if len2 = 0 then
        some (crc1, rounds, applied)
      else
        combineLoopCount fuel even odd crc1 len2 rounds applied

/-- The value of `sum2` in `CombineAdler32` after `sum2 = rem * sum1; sum2 %= mod`. -/
def adlerProd (adler1 : Nat) (len2 : Int) : Nat :=
  mul32 (adlerRem len2) (adler1 &&& 0xffff) % adlerMod

/-! ## Arithmetic form of the word operations -/

theorem word32_eq : word32 = 4294967296 := by norm_num [word32]

theorem word64_eq : word64 = 18446744073709551616 := by norm_num [word64]

theorem and_ffff (a : Nat) : a &&& 0xffff = a % 65536 := by
  have h := Nat.and_pow_two_sub_one_eq_mod a 16
  norm_num at h
  exact h

theorem shr16 (a : Nat) : a >>> 16 = a / 65536 := by
  rw [Nat.shiftRight_eq_div_pow]

theorem or_shl16 (lo hi : Nat) (h : lo < 65536) : lo ||| hi * 65536 = hi * 65536 + lo := by
  have h2 : lo < 2 ^ 16 := by norm_num; exact h
  have h3 := Nat.mul_add_lt_is_or h2 hi
  rw [Nat.lor_comm, Nat.mul_comm hi 65536]
  norm_num at h3
  exact h3.symm

theorem adlerRem_eq (len2 : Int) (h : 0 ≤ len2) : adlerRem len2 = len2.toNat % 65521 := by
  unfold adlerRem adlerMod
  rw [Int.tmod_eq_emod h (by norm_num)]
  have h1 : (len2 % ((65521 : Nat) : Int)).toNat = len2.toNat % 65521 := by
    omega
  rw [h1, word32_eq]
  omega

theorem adlerSum1Raw_eq (adler1 adler2 : Nat) :
    adlerSum1Raw adler1 adler2 = adler1 % 65536 + adler2 % 65536 + 65520 := by
  unfold adlerSum1Raw add32 sub32 adlerMod
  rw [and_ffff, and_ffff, word32_eq]
  omega

theorem adlerSum2Raw_eq (adler1 adler2 : Nat) (len2 : Int) (h : 0 ≤ len2)
    (h1 : adler1 < 2 ^ 32) (h2 : adler2 < 2 ^ 32) :
    adlerSum2Raw adler1 adler2 len2 =
      (len2.toNat % 65521) * (adler1 % 65536) % 65521 + adler1 / 65536 + adler2 / 65536
        + (65521 - len2.toNat % 65521) := by
  unfold adlerSum2Raw add32 sub32 mul32 adlerMod
  rw [adlerRem_eq len2 h, and_ffff, shr16, shr16, word32_eq]
  have hr : len2.toNat % 65521 ≤ 65520 := by omega
  have hx : adler1 % 65536 ≤ 65535 := by omega
  have hm : len2.toNat % 65521 * (adler1 % 65536) ≤ 65520 * 65535 := Nat.mul_le_mul hr hx
  have hs : len2.toNat % 65521 * (adler1 % 65536) % 65521 < 65521 := Nat.mod_lt _ (by norm_num)
  norm_num at h1 h2
  rw [Nat.mod_eq_of_lt (show len2.toNat % 65521 * (adler1 % 65536) < 4294967296 by omega)]
  omega

theorem adlerNorm1_eq (s : Nat) (h : s < 3 * 65521) : adlerNorm1 s = s % 65521 := by
  unfold adlerNorm1 sub32 adlerMod
  rw [word32_eq]
  simp only []
  split_ifs <;> omega

theorem adlerNorm2_eq (s : Nat) (h : s < 4 * 65521) : adlerNorm2 s = s % 65521 := by
  unfold adlerNorm2 sub32 adlerMod
  rw [word32_eq]
  simp only [Nat.shiftLeft_eq]
  split_ifs <;> omega

theorem adlerSum1_eq (adler1 adler2 : Nat)
    (h : adler1 % 65536 + adler2 % 65536 ≤ 2 * 65521) :
    adlerSum1 adler1 adler2 = (adler1 % 65536 + adler2 % 65536 + 65520) % 65521 := by
  unfold adlerSum1
  rw [adlerSum1Raw_eq, adlerNorm1_eq _ (by omega)]

theorem adlerSum2_eq (adler1 adler2 : Nat) (len2 : Int) (h : 0 ≤ len2)
    (h1 : adler1 / 65536 < 65521) (h2 : adler2 / 65536 < 65521) :
    adlerSum2 adler1 adler2 len2 =
      ((len2.toNat % 65521) * (adler1 % 65536) % 65521 + adler1 / 65536 + adler2 / 65536
        + (65521 - len2.toNat % 65521)) % 65521 := by
  unfold adlerSum2
  have hs : len2.toNat % 65521 * (adler1 % 65536) % 65521 < 65521 := Nat.mod_lt _ (by norm_num)
  have hr : 0 < len2.toNat % 65521 ∨ len2.toNat % 65521 = 0 := by omega
  have hz : len2.toNat % 65521 = 0 →
      len2.toNat % 65521 * (adler1 % 65536) % 65521 = 0 := by
    intro h0
    rw [h0]
    simp
  rw [adlerSum2Raw_eq adler1 adler2 len2 h (by norm_num; omega) (by norm_num; omega),
    adlerNorm2_eq _ (by omega)]

/-- The two halves of `lo | (hi << 16)` when both fit in 16 bits. -/
theorem halves_of_pack (lo hi : Nat) (hlo : lo < 65536) (hhi : hi < 65536) :
    (lo ||| shl32 hi 16) &&& 0xffff = lo ∧ (lo ||| shl32 hi 16) >>> 16 = hi := by
  have hs : shl32 hi 16 = hi * 65536 := by
    unfold shl32
    rw [Nat.shiftLeft_eq, word32_eq]
    omega
  rw [hs, or_shl16 lo hi hlo, and_ffff, shr16]
  omega

theorem CombineAdler32_ok (adler1 adler2 : Nat) (len2 : Int) (h : 0 ≤ len2) :
    CombineAdler32 adler1 adler2 len2 =
      Except.ok (adlerSum1 adler1 adler2 ||| shl32 (adlerSum2 adler1 adler2 len2) 16) := by
  unfold CombineAdler32
  rw [if_neg (by omega)]

/-- On inputs whose four halves are reduced, both normalised sums are the residues of the
sums before normalisation. -/
theorem adlerSums_reduced (adler1 adler2 : Nat) (len2 : Int) (hlen : 0 ≤ len2)
    (h1l : adler1 &&& 0xffff < 65521) (h1h : adler1 >>> 16 < 65521)
    (h2l : adler2 &&& 0xffff < 65521) (h2h : adler2 >>> 16 < 65521) :
    adlerSum1 adler1 adler2 = (adler1 % 65536 + adler2 % 65536 + 65520) % 65521 ∧
    adlerSum2 adler1 adler2 len2 =
      ((len2.toNat % 65521) * (adler1 % 65536) % 65521 + adler1 / 65536 + adler2 / 65536
        + (65521 - len2.toNat % 65521)) % 65521 := by
  rw [and_ffff] at h1l h2l
  rw [shr16] at h1h h2h
  exact ⟨adlerSum1_eq adler1 adler2 (by omega), adlerSum2_eq adler1 adler2 len2 hlen h1h h2h⟩

/-! ## Claims about `CombineAdler32` -/

/-- C5: `CombineAdler32` fails, with the negative-length panic, if and only if `len2 < 0`;
for every `len2 ≥ 0` it returns a value. -/
theorem CombineAdler32_fails_iff_negative (adler1 adler2 : Nat) (len2 : Int) :
    (CombineAdler32 adler1 adler2 len2 = Except.error negativeLength ↔ len2 < 0) ∧
    ((∃ r, CombineAdler32 adler1 adler2 len2 = Except.ok r) ↔ 0 ≤ len2) := by
  unfold CombineAdler32
  by_cases h : len2 < 0
  · simp [h]
  · simp [h]
    omega

/-- C6: for `len2 ≥ 0` and inputs whose low and high 16 bits are each below 65521, the
result of `CombineAdler32` again has its low and its high 16 bits below 65521. -/
theorem CombineAdler32_result_reduced (adler1 adler2 : Nat) (len2 : Int) (hlen : 0 ≤ len2)
    (h1l : adler1 &&& 0xffff < 65521) (h1h : adler1 >>> 16 < 65521)
    (h2l : adler2 &&& 0xffff < 65521) (h2h : adler2 >>> 16 < 65521) :
    ∃ r, CombineAdler32 adler1 adler2 len2 = Except.ok r ∧
      r &&& 0xffff < 65521 ∧ r >>> 16 < 65521 := by
  obtain ⟨e1, e2⟩ := adlerSums_reduced adler1 adler2 len2 hlen h1l h1h h2l h2h
  have b1 : adlerSum1 adler1 adler2 < 65521 := by
    rw [e1]
    exact Nat.mod_lt _ (by norm_num)
  have b2 : adlerSum2 adler1 adler2 len2 < 65521 := by
    rw [e2]
    exact Nat.mod_lt _ (by norm_num)
  obtain ⟨p1, p2⟩ := halves_of_pack (adlerSum1 adler1 adler2) (adlerSum2 adler1 adler2 len2)
    (by omega) (by omega)
  refine ⟨_, CombineAdler32_ok adler1 adler2 len2 hlen, ?_, ?_⟩
  · rw [p1]
    exact b1
  · rw [p2]
    exact b2

theorem CombineAdler32_result_reduced_witness :
    ∃ r, CombineAdler32 38600999 19267851 2 = Except.ok r ∧
      r &&& 0xffff < 65521 ∧ r >>> 16 < 65521 :=
  CombineAdler32_result_reduced 38600999 19267851 2 (by decide) (by decide) (by decide)
    (by decide) (by decide)

/-- C8: for `len2 ≥ 0` and inputs whose halves `a1, b1, a2, b2` are each below 65521, the
low half of the result is `(a1 + a2 - 1) mod 65521`, the high half is
`(len2 * a1 + b1 + b2 - len2) mod 65521`, and the result is `low | (high << 16)`. -/
theorem CombineAdler32_closed_form (adler1 adler2 : Nat) (len2 : Int) (hlen : 0 ≤ len2)
    (h1l : adler1 &&& 0xffff < 65521) (h1h : adler1 >>> 16 < 65521)
    (h2l : adler2 &&& 0xffff < 65521) (h2h : adler2 >>> 16 < 65521) :
    ∃ r, CombineAdler32 adler1 adler2 len2 = Except.ok r ∧
      ((r &&& 0xffff : Nat) : Int) =
        (((adler1 &&& 0xffff : Nat) : Int) + ((adler2 &&& 0xffff : Nat) : Int) - 1) % 65521 ∧
      ((r >>> 16 : Nat) : Int) =
        (len2 * ((adler1 &&& 0xffff : Nat) : Int) + ((adler1 >>> 16 : Nat) : Int)
          + ((adler2 >>> 16 : Nat) : Int) - len2) % 65521 ∧
      r = (r &&& 0xffff) ||| ((r >>> 16) <<< 16) := by
  obtain ⟨e1, e2⟩ := adlerSums_reduced adler1 adler2 len2 hlen h1l h1h h2l h2h
  have b1 : adlerSum1 adler1 adler2 < 65521 := by
    rw [e1]
    exact Nat.mod_lt _ (by norm_num)
  have b2 : adlerSum2 adler1 adler2 len2 < 65521 := by
    rw [e2]
    exact Nat.mod_lt _ (by norm_num)
  obtain ⟨p1, p2⟩ := halves_of_pack (adlerSum1 adler1 adler2) (adlerSum2 adler1 adler2 len2)
    (by omega) (by omega)
  refine ⟨_, CombineAdler32_ok adler1 adler2 len2 hlen, ?_, ?_, ?_⟩
  · rw [p1, e1, and_ffff, and_ffff]
    omega
  · rw [p2, e2, and_ffff, shr16, shr16]
    obtain ⟨n, rfl⟩ := Int.eq_ofNat_of_zero_le hlen
    rw [Int.toNat_ofNat, Nat.mod_mul_mod]
    have hm : ((n : Int) * ((adler1 % 65536 : Nat) : Int)) = ((n * (adler1 % 65536) : Nat) : Int) := by
      push_cast
      rfl
    rw [hm]
    generalize n * (adler1 % 65536) = q
    omega
  · rw [p1, p2]
    have hs : shl32 (adlerSum2 adler1 adler2 len2) 16 = adlerSum2 adler1 adler2 len2 <<< 16 := by
      unfold shl32
      rw [Nat.shiftLeft_eq, word32_eq]
      omega
    rw [hs]

theorem CombineAdler32_closed_form_witness :
    ∃ r, CombineAdler32 38600999 19267851 2 = Except.ok r ∧
      ((r &&& 0xffff : Nat) : Int) =
        (((38600999 &&& 0xffff : Nat) : Int) + ((19267851 &&& 0xffff : Nat) : Int) - 1) % 65521 ∧
      ((r >>> 16 : Nat) : Int) =
        (2 * ((38600999 &&& 0xffff : Nat) : Int) + ((38600999 >>> 16 : Nat) : Int)
          + ((19267851 >>> 16 : Nat) : Int) - 2) % 65521 ∧
      r = (r &&& 0xffff) ||| ((r >>> 16) <<< 16) :=
  CombineAdler32_closed_form 38600999 19267851 2 (by decide) (by decide) (by decide)
    (by decide) (by decide)

/-! ## The Adler-32 checksum in closed form -/

theorem adlerUpdate_cons (s : Nat × Nat) (b : Nat) (bs : List Nat) :
    adlerUpdate s (b :: bs) = adlerUpdate (adlerByte s b) bs := rfl

theorem adlerUpdate_eq (data : List Nat) :
    ∀ x y : Nat, x < 65521 → y < 65521 →
      adlerUpdate (x, y) data =
        ((x + data.sum) % 65521, (y + data.length * x + weightedSum data) % 65521) := by
  induction data with
  | nil =>
    intro x y hx hy
    simp [adlerUpdate, weightedSum, Nat.mod_eq_of_lt hx, Nat.mod_eq_of_lt hy]
  | cons b bs ih =>
    intro x y hx hy
    have hM : (0 : Nat) < 65521 := by norm_num
    rw [adlerUpdate_cons]
    unfold adlerByte adlerMod
    rw [ih _ _ (Nat.mod_lt _ hM) (Nat.mod_lt _ hM)]
    simp only [List.sum_cons, List.length_cons, weightedSum]
    have hmul : bs.length * ((x + b) % 65521) % 65521 =
        (bs.length * x + bs.length * b) % 65521 := by
      rw [Nat.mul_mod, Nat.mod_mod, ← Nat.mul_mod, Nat.mul_add]
    have e1 : (bs.length + 1) * x = bs.length * x + x := by ring
    have e2 : (bs.length + 1) * b = bs.length * b + b := by ring
    rw [e1, e2]
    generalize bs.length * ((x + b) % 65521) = u at hmul ⊢
    generalize bs.length * x = p at hmul ⊢
    generalize bs.length * b = q at hmul ⊢
    generalize bs.sum = S
    generalize weightedSum bs = T
    refine Prod.ext ?_ ?_
    · show ((x + b) % 65521 + S) % 65521 = (x + (b + S)) % 65521
      omega
    · show ((y + (x + b) % 65521) % 65521 + u + T) % 65521 = (y + (p + x) + (q + b + T)) % 65521
      omega

theorem weightedSum_append (A B : List Nat) :
    weightedSum (A ++ B) = weightedSum A + B.length * A.sum + weightedSum B := by
  induction A with
  | nil => simp [weightedSum]
  | cons a A ih =>
    show ((A ++ B).length + 1) * a + weightedSum (A ++ B) =
      ((A.length + 1) * a + weightedSum A) + B.length * (a :: A).sum + weightedSum B
    rw [ih, List.length_append, List.sum_cons]
    ring

theorem adler32Checksum_eq (data : List Nat) :
    adler32Checksum data =
      ((data.length + weightedSum data) % 65521) * 65536 + (1 + data.sum) % 65521 := by
  unfold adler32Checksum
  rw [adlerUpdate_eq data 1 0 (by norm_num) (by norm_num)]
  simp only [Nat.shiftLeft_eq, Nat.zero_add, Nat.mul_one]
  have h : (1 + data.sum) % 65521 < 65536 :=
    Nat.lt_of_lt_of_le (Nat.mod_lt _ (by norm_num)) (by norm_num)
  have e : (2 : Nat) ^ 16 = 65536 := by norm_num
  rw [e, or_shl16 _ _ h]

/-- C2: combining the Adler-32 checksums of `A` and `B` with the length of `B` gives the
Adler-32 checksum of `A ++ B`, for all byte sequences, empty ones included. -/
theorem CombineAdler32_checksum (A B : List Nat) :
    CombineAdler32 (adler32Checksum A) (adler32Checksum B) (B.length : Int) =
      Except.ok (adler32Checksum (A ++ B)) := by
  have hM : (0 : Nat) < 65521 := by norm_num
  rw [CombineAdler32_ok _ _ _ (Int.ofNat_nonneg _)]
  have hA := adler32Checksum_eq A
  have hB := adler32Checksum_eq B
  have hAB := adler32Checksum_eq (A ++ B)
  rw [List.length_append, List.sum_append, weightedSum_append] at hAB
  have a1 := Nat.mod_lt (1 + A.sum) hM
  have b1 := Nat.mod_lt (A.length + weightedSum A) hM
  have a2 := Nat.mod_lt (1 + B.sum) hM
  have b2 := Nat.mod_lt (B.length + weightedSum B) hM
  have lo1 : adler32Checksum A % 65536 = (1 + A.sum) % 65521 := by omega
  have hi1 : adler32Checksum A / 65536 = (A.length + weightedSum A) % 65521 := by omega
  have lo2 : adler32Checksum B % 65536 = (1 + B.sum) % 65521 := by omega
  have hi2 : adler32Checksum B / 65536 = (B.length + weightedSum B) % 65521 := by omega
  have s1 := adlerSum1_eq (adler32Checksum A) (adler32Checksum B) (by omega)
  have s2 := adlerSum2_eq (adler32Checksum A) (adler32Checksum B) (B.length : Int)
    (Int.ofNat_nonneg _) (by omega) (by omega)
  rw [lo1, lo2] at s1
  rw [lo1, hi1, hi2, Int.toNat_ofNat, Nat.mod_mul_mod, Nat.mul_mod, Nat.mod_mod,
    ← Nat.mul_mod, Nat.mul_add, Nat.mul_one] at s2
  have t1 : adlerSum1 (adler32Checksum A) (adler32Checksum B) =
      (1 + (A.sum + B.sum)) % 65521 := by
    rw [s1]
    omega
  have t2 : adlerSum2 (adler32Checksum A) (adler32Checksum B) (B.length : Int) =
      (A.length + B.length + (weightedSum A + B.length * A.sum + weightedSum B)) % 65521 := by
    rw [s2]
    generalize B.length * A.sum = q
    omega
  have hs : shl32 (adlerSum2 (adler32Checksum A) (adler32Checksum B) (B.length : Int)) 16 =
      adlerSum2 (adler32Checksum A) (adler32Checksum B) (B.length : Int) * 65536 := by
    unfold shl32
    rw [Nat.shiftLeft_eq, word32_eq, t2]
    omega
  rw [hs, or_shl16 _ _ (by rw [t1]; omega), t1, t2, hAB]

/-! ## Normalisation on arbitrary 32-bit inputs -/

theorem adlerNorm1_lt_iff (s : Nat) (h : s < 2 ^ 32) :
    adlerNorm1 s < 65521 ↔ s < 3 * 65521 := by
  unfold adlerNorm1 sub32 adlerMod
  rw [word32_eq]
  norm_num at h
  simp only []
  split_ifs <;> omega

theorem adlerNorm2_lt_iff (s : Nat) (h : s < 2 ^ 32) :
    adlerNorm2 s < 65521 ↔ s < 4 * 65521 := by
  unfold adlerNorm2 sub32 adlerMod
  rw [word32_eq]
  norm_num at h
  simp only [Nat.shiftLeft_eq]
  split_ifs <;> omega

/-- C9 (as stated, refuted): on the 32-bit inputs `adler1 = 65535`, `adler2 = 65508`,
`len2 = 0` the two subtractions leave `sum1 = 65521`, and the low 16 bits of the result are
65521; on `adler1 = 0xfffffff0`, `adler2 = 0xffff0000`, `len2 = 1` the stepped
subtractions leave `sum2 = 65547`. -/
theorem adlerNorm_unreduced_counterexample :
    ((65535 : Nat) < 2 ^ 32 ∧ (65508 : Nat) < 2 ^ 32 ∧ (0 : Int) ≤ 0 ∧
      adlerSum1 65535 65508 = 65521 ∧ ¬ adlerSum1 65535 65508 < 65521 ∧
      CombineAdler32 65535 65508 0 = Except.ok 65521 ∧ ¬ (65521 &&& 0xffff < 65521)) ∧
    ((0xfffffff0 : Nat) < 2 ^ 32 ∧ (0xffff0000 : Nat) < 2 ^ 32 ∧ (0 : Int) ≤ 1 ∧
      adlerSum2 0xfffffff0 0xffff0000 1 = 65547 ∧
      ¬ adlerSum2 0xfffffff0 0xffff0000 1 < 65521) := by
  refine ⟨⟨by decide, by decide, by decide, by decide, by decide, by rfl, by decide⟩,
    by decide, by decide, by decide, by decide, by decide⟩

/-- C9 (amended): for `len2 ≥ 0` and 32-bit inputs, the two subtractions leave
`sum1 < 65521` exactly when the low halves of the inputs add up to at most `2 * 65521`, and
the stepped subtractions leave `sum2 < 65521` exactly when `sum2` was below `4 * 65521`
before them; both hold when the four halves of the inputs are below 65521, and then the two
halves of the result are these sums. -/
theorem adlerNorm_in_range_iff (adler1 adler2 : Nat) (len2 : Int) (hlen : 0 ≤ len2)
    (h1 : adler1 < 2 ^ 32) (h2 : adler2 < 2 ^ 32) :
    (adlerSum1 adler1 adler2 < 65521 ↔
      (adler1 &&& 0xffff) + (adler2 &&& 0xffff) ≤ 2 * 65521) ∧
    (adlerSum2 adler1 adler2 len2 < 65521 ↔ adlerSum2Raw adler1 adler2 len2 < 4 * 65521) ∧
    ((adler1 &&& 0xffff < 65521 ∧ adler1 >>> 16 < 65521 ∧
        adler2 &&& 0xffff < 65521 ∧ adler2 >>> 16 < 65521) →
      adlerSum1 adler1 adler2 < 65521 ∧ adlerSum2 adler1 adler2 len2 < 65521 ∧
      ∃ r, CombineAdler32 adler1 adler2 len2 = Except.ok r ∧
        r &&& 0xffff = adlerSum1 adler1 adler2 ∧ r >>> 16 = adlerSum2 adler1 adler2 len2) := by
  refine ⟨?_, ?_, ?_⟩
  · unfold adlerSum1
    rw [adlerNorm1_lt_iff _ (by rw [adlerSum1Raw_eq]; norm_num; omega), adlerSum1Raw_eq,
      and_ffff, and_ffff]
    omega
  · unfold adlerSum2
    have hs : len2.toNat % 65521 * (adler1 % 65536) % 65521 < 65521 :=
      Nat.mod_lt _ (by norm_num)
    have hb : adlerSum2Raw adler1 adler2 len2 < 2 ^ 32 := by
      rw [adlerSum2Raw_eq adler1 adler2 len2 hlen h1 h2]
      norm_num at h1 h2 ⊢
      omega
    exact adlerNorm2_lt_iff _ hb
  · rintro ⟨h1l, h1h, h2l, h2h⟩
    obtain ⟨e1, e2⟩ := adlerSums_reduced adler1 adler2 len2 hlen h1l h1h h2l h2h
    have b1 : adlerSum1 adler1 adler2 < 65521 := by
      rw [e1]
      exact Nat.mod_lt _ (by norm_num)
    have b2 : adlerSum2 adler1 adler2 len2 < 65521 := by
      rw [e2]
      exact Nat.mod_lt _ (by norm_num)
    obtain ⟨p1, p2⟩ := halves_of_pack (adlerSum1 adler1 adler2)
      (adlerSum2 adler1 adler2 len2) (by omega) (by omega)
    exact ⟨b1, b2, _, CombineAdler32_ok adler1 adler2 len2 hlen, p1, p2⟩

theorem adlerNorm_in_range_iff_witness :
    (adlerSum1 38600999 19267851 < 65521 ↔
      (38600999 &&& 0xffff) + (19267851 &&& 0xffff) ≤ 2 * 65521) ∧
    (adlerSum2 38600999 19267851 2 < 65521 ↔ adlerSum2Raw 38600999 19267851 2 < 4 * 65521) ∧
    ((38600999 &&& 0xffff < 65521 ∧ 38600999 >>> 16 < 65521 ∧
        19267851 &&& 0xffff < 65521 ∧ 19267851 >>> 16 < 65521) →
      adlerSum1 38600999 19267851 < 65521 ∧ adlerSum2 38600999 19267851 2 < 65521 ∧
      ∃ r, CombineAdler32 38600999 19267851 2 = Except.ok r ∧
        r &&& 0xffff = adlerSum1 38600999 19267851 ∧
        r >>> 16 = adlerSum2 38600999 19267851 2) :=
  adlerNorm_in_range_iff 38600999 19267851 2 (by decide) (by decide) (by decide)

/-! ## The GF(2) matrix helpers -/

theorem xorRows_zero (mat : List Nat) : ∀ k n : Nat, xorRows mat k n 0 = 0 := by
  intro k
  induction k with
  | zero => intro n; rfl
  | succ k ih =>
    intro n
    show (if 0 % 2 = 1 then mat.getD n 0 else 0) ^^^ xorRows mat k (n + 1) (0 / 2) = 0
    simp [ih]

theorem matrixMultLoop_eq (mat : List Nat) :
    ∀ k n vec sum : Nat, n + k ≤ 64 →
      matrixMultLoop mat k n vec sum = sum ^^^ xorRows mat k n vec := by
  intro k
  induction k with
  | zero =>
    intro n vec sum _
    show sum = sum ^^^ 0
    simp
  | succ k ih =>
    intro n vec sum h
    show (if n < 64 ∧ vec > 0 then
        matrixMultLoop mat k (n + 1) (vec >>> 1)
          (if vec &&& 1 > 0 then sum ^^^ mat.getD n 0 else sum)
      else sum) =
      sum ^^^ ((if vec % 2 = 1 then mat.getD n 0 else 0) ^^^ xorRows mat k (n + 1) (vec / 2))
    by_cases hv : vec > 0
    · rw [if_pos ⟨by omega, hv⟩, ih _ _ _ (by omega), Nat.and_one_is_mod,
        Nat.shiftRight_succ, Nat.shiftRight_zero]
      by_cases hb : vec % 2 = 1
      · rw [if_pos hb, if_pos (by omega), Nat.xor_assoc]
      · rw [if_neg hb, if_neg (by omega), Nat.zero_xor]
    · have h0 : vec = 0 := by omega
      subst h0
      rw [if_neg (by omega)]
      simp [xorRows_zero]

theorem matrixMult_eq_xorRows (mat : List Nat) (vec : Nat) :
    matrixMult mat vec = xorRows mat 64 0 vec := by
  unfold matrixMult
  rw [matrixMultLoop_eq mat 64 0 vec 0 (by omega), Nat.zero_xor]

theorem xorRows_xor (mat : List Nat) :
    ∀ k n a b : Nat, xorRows mat k n (a ^^^ b) = xorRows mat k n a ^^^ xorRows mat k n b := by
  intro k
  induction k with
  | zero =>
    intro n a b
    show 0 = 0 ^^^ 0
    simp
  | succ k ih =>
    intro n a b
    show (if (a ^^^ b) % 2 = 1 then mat.getD n 0 else 0)
        ^^^ xorRows mat k (n + 1) ((a ^^^ b) / 2) =
      ((if a % 2 = 1 then mat.getD n 0 else 0) ^^^ xorRows mat k (n + 1) (a / 2)) ^^^
      ((if b % 2 = 1 then mat.getD n 0 else 0) ^^^ xorRows mat k (n + 1) (b / 2))
    rw [Nat.xor_div_two, ih]
    have hx := @Nat.xor_mod_two_eq_one a b
    by_cases ha : a % 2 = 1 <;> by_cases hb : b % 2 = 1
    · rw [if_neg (by rw [hx]; simp [ha, hb]), if_pos ha, if_pos hb]
      generalize mat.getD n 0 = r
      generalize xorRows mat k (n + 1) (a / 2) = x
      generalize xorRows mat k (n + 1) (b / 2) = y
      have e : (r ^^^ x) ^^^ (r ^^^ y) = (r ^^^ r) ^^^ (x ^^^ y) := by ac_rfl
      rw [e, Nat.xor_self]
    · rw [if_pos (by rw [hx]; simp [ha, hb]), if_pos ha, if_neg hb]
      generalize mat.getD n 0 = r
      generalize xorRows mat k (n + 1) (a / 2) = x
      generalize xorRows mat k (n + 1) (b / 2) = y
      rw [Nat.zero_xor]
      ac_rfl
    · rw [if_pos (by rw [hx]; simp [ha, hb]), if_neg ha, if_pos hb]
      generalize mat.getD n 0 = r
      generalize xorRows mat k (n + 1) (a / 2) = x
      generalize xorRows mat k (n + 1) (b / 2) = y
      rw [Nat.zero_xor]
      ac_rfl
    · rw [if_neg (by rw [hx]; simp [ha, hb]), if_neg ha, if_neg hb]
      simp only [Nat.zero_xor]

theorem matrixMult_xor (mat : List Nat) (a b : Nat) :
    matrixMult mat (a ^^^ b) = matrixMult mat a ^^^ matrixMult mat b := by
  simp only [matrixMult_eq_xorRows, xorRows_xor]

theorem matrixMult_zero (mat : List Nat) : matrixMult mat 0 = 0 := by
  rw [matrixMult_eq_xorRows, xorRows_zero]

theorem matrixSquare_getD (mat : List Nat) (n : Nat) (h : n < 64) :
    (matrixSquare mat).getD n 0 = matrixMult mat (mat.getD n 0) := by
  unfold matrixSquare
  rw [List.getD_eq_getElem _ _ (by simp; exact h)]
  simp

theorem xorRows_matrixSquare (mat : List Nat) :
    ∀ k n vec : Nat, n + k ≤ 64 →
      xorRows (matrixSquare mat) k n vec = matrixMult mat (xorRows mat k n vec) := by
  intro k
  induction k with
  | zero =>
    intro n vec _
    show 0 = matrixMult mat 0
    rw [matrixMult_zero]
  | succ k ih =>
    intro n vec h
    show (if vec % 2 = 1 then (matrixSquare mat).getD n 0 else 0)
        ^^^ xorRows (matrixSquare mat) k (n + 1) (vec / 2) =
      matrixMult mat
        ((if vec % 2 = 1 then mat.getD n 0 else 0) ^^^ xorRows mat k (n + 1) (vec / 2))
    rw [matrixMult_xor, ih _ _ (by omega), matrixSquare_getD mat n (by omega)]
    by_cases hb : vec % 2 = 1
    · rw [if_pos hb, if_pos hb]
    · rw [if_neg hb, if_neg hb, matrixMult_zero]

/-- Squaring composes the operator with itself. -/
theorem matrixMult_matrixSquare (mat : List Nat) (vec : Nat) :
    matrixMult (matrixSquare mat) vec = matrixMult mat (matrixMult mat vec) := by
  rw [matrixMult_eq_xorRows (matrixSquare mat), xorRows_matrixSquare mat 64 0 vec (by omega),
    ← matrixMult_eq_xorRows]

/-! ## The operator for one zero bit -/

theorem xor_low_high (a m i : Nat) (h : a < 2 ^ i) : a ^^^ 2 ^ i * m = 2 ^ i * m + a := by
  apply Nat.eq_of_testBit_eq
  intro j
  rw [Nat.testBit_xor, Nat.testBit_mul_pow_two_add m h, Nat.testBit_mul_pow_two]
  by_cases hj : j < i
  · have hn : ¬ i ≤ j := by omega
    simp [hj, hn]
  · have hle : i ≤ j := by omega
    have ha : a.testBit j = false :=
      Nat.testBit_lt_two_pow (Nat.lt_of_lt_of_le h (Nat.pow_le_pow_right (by norm_num) hle))
    simp [hj, ha, hle]

theorem shiftRows_getD :
    ∀ k j i : Nat, j + k ≤ 64 → i < k → (shiftRows k (2 ^ j)).getD i 0 = 2 ^ (j + i) := by
  intro k
  induction k with
  | zero => intro j i _ hi; omega
  | succ k ih =>
    intro j i hjk hi
    show (2 ^ j :: shiftRows k (shl64 (2 ^ j) 1)).getD i 0 = 2 ^ (j + i)
    cases i with
    | zero => rfl
    | succ i =>
      rw [List.getD_cons_succ]
      have hs : shl64 (2 ^ j) 1 = 2 ^ (j + 1) := by
        unfold shl64 word64
        rw [Nat.shiftLeft_eq, ← Nat.pow_succ]
        exact Nat.mod_eq_of_lt (Nat.pow_lt_pow_right (by norm_num) (by omega))
      rw [hs, ih (j + 1) i (by omega) (by omega)]
      congr 1
      omega

theorem zeroBitOperator_getD_zero (poly : Nat) : (zeroBitOperator poly).getD 0 0 = poly := rfl

theorem zeroBitOperator_getD_succ (poly n : Nat) (h : n < 63) :
    (zeroBitOperator poly).getD (n + 1) 0 = 2 ^ n := by
  show (poly :: shiftRows 63 (2 ^ 0)).getD (n + 1) 0 = 2 ^ n
  rw [List.getD_cons_succ, shiftRows_getD 63 0 n (by omega) h, Nat.zero_add]

theorem xorRows_shift (mat : List Nat) :
    ∀ k n w : Nat, (∀ i, i < k → mat.getD (n + 1 + i) 0 = 2 ^ (n + i)) → w < 2 ^ k →
      xorRows mat k (n + 1) w = w * 2 ^ n := by
  intro k
  induction k with
  | zero =>
    intro n w _ hw
    have h0 : w = 0 := by simpa using hw
    subst h0
    show 0 = 0 * 2 ^ n
    simp
  | succ k ih =>
    intro n w hrow hw
    show (if w % 2 = 1 then mat.getD (n + 1) 0 else 0) ^^^ xorRows mat k (n + 1 + 1) (w / 2) =
      w * 2 ^ n
    have hw2 : w / 2 < 2 ^ k := by
      rw [Nat.pow_succ] at hw
      omega
    have hrow' : ∀ i, i < k → mat.getD (n + 1 + 1 + i) 0 = 2 ^ (n + 1 + i) := by
      intro i hi
      have h := hrow (i + 1) (by omega)
      rw [show n + 1 + (i + 1) = n + 1 + 1 + i by omega, show n + (i + 1) = n + 1 + i by omega] at h
      exact h
    rw [ih (n + 1) (w / 2) hrow' hw2, hrow 0 (by omega), Nat.add_zero]
    by_cases hb : w % 2 = 1
    · rw [if_pos hb, Nat.mul_comm (w / 2), xor_low_high (2 ^ n) (w / 2) (n + 1)
        (Nat.pow_lt_pow_right (by norm_num) (by omega))]
      have e : w = 2 * (w / 2) + 1 := by omega
      generalize w / 2 = q at e
      subst e
      ring
    · rw [if_neg hb, Nat.zero_xor]
      have e : w = 2 * (w / 2) := by omega
      generalize w / 2 = q at e
      subst e
      ring

/-- The base operator is the one-zero-bit register step. -/
theorem matrixMult_zeroBitOperator (poly v : Nat) (hv : v < 2 ^ 64) :
    matrixMult (zeroBitOperator poly) v = crcStep poly v := by
  rw [matrixMult_eq_xorRows]
  show (if v % 2 = 1 then (zeroBitOperator poly).getD 0 0 else 0)
      ^^^ xorRows (zeroBitOperator poly) 63 (0 + 1) (v / 2) = crcStep poly v
  rw [xorRows_shift (zeroBitOperator poly) 63 0 (v / 2)
    (fun i hi => by
      simp only [Nat.zero_add]
      rw [Nat.add_comm 1 i]
      exact zeroBitOperator_getD_succ poly i hi)
    (by omega)]
  unfold crcStep
  rw [zeroBitOperator_getD_zero, Nat.shiftRight_succ, Nat.shiftRight_zero, Nat.pow_zero,
    Nat.mul_one, Nat.xor_comm]

/-! ## The zero-bit step and its powers -/

theorem shr_one (v : Nat) : v >>> 1 = v / 2 := by
  rw [Nat.shiftRight_succ, Nat.shiftRight_zero]

theorem crcStep_lt (poly v : Nat) (hp : poly < 2 ^ 64) (hv : v < 2 ^ 64) :
    crcStep poly v < 2 ^ 64 := by
  unfold crcStep
  apply Nat.xor_lt_two_pow
  · rw [shr_one]
    omega
  · split_ifs
    · exact hp
    · exact Nat.two_pow_pos 64

theorem crcStep_iterate_lt (poly : Nat) (hp : poly < 2 ^ 64) :
    ∀ n v : Nat, v < 2 ^ 64 → (crcStep poly)^[n] v < 2 ^ 64 := by
  intro n
  induction n with
  | zero => intro v hv; exact hv
  | succ n ih =>
    intro v hv
    rw [Function.iterate_succ_apply]
    exact ih _ (crcStep_lt poly v hp hv)

theorem matrixSquare_power (poly : Nat) (hp : poly < 2 ^ 64) (mat : List Nat) (m : Nat)
    (hop : ∀ v, v < 2 ^ 64 → matrixMult mat v = (crcStep poly)^[m] v) :
    ∀ v, v < 2 ^ 64 → matrixMult (matrixSquare mat) v = (crcStep poly)^[2 * m] v := by
  intro v hv
  rw [matrixMult_matrixSquare, hop v hv, hop _ (crcStep_iterate_lt poly hp m v hv),
    ← Function.iterate_add_apply]
  congr 1
  omega

theorem apply_bit (poly : Nat) (mat : List Nat) (m crc l : Nat)
    (hop : ∀ v, v < 2 ^ 64 → matrixMult mat v = (crcStep poly)^[m] v) (hc : crc < 2 ^ 64) :
    (if l &&& 1 > 0 then matrixMult mat crc else crc) = (crcStep poly)^[m * (l % 2)] crc := by
  rw [Nat.and_one_is_mod]
  by_cases hb : l % 2 > 0
  · have h1 : l % 2 = 1 := by omega
    rw [if_pos hb, hop crc hc, h1, Nat.mul_one]
  · have h0 : l % 2 = 0 := by omega
    rw [if_neg hb, h0, Nat.mul_zero]
    rfl

theorem combineLoop_eq (poly : Nat) (hp : poly < 2 ^ 64) :
    ∀ (fuel : Nat) (even odd : List Nat) (crc1 len2 m : Nat),
      (∀ v, v < 2 ^ 64 → matrixMult odd v = (crcStep poly)^[m] v) →
      crc1 < 2 ^ 64 → 0 < fuel → len2 < 4 ^ fuel →
      combineLoop fuel even odd crc1 len2 = some ((crcStep poly)^[2 * m * len2] crc1) := by
  intro fuel
  induction fuel with
  | zero => intro _ _ _ _ _ _ _ h; omega
  | succ fuel ih =>
    intro even odd crc1 len2 m hop hc _ hlen
    have hE := matrixSquare_power poly hp odd m hop
    have hO := matrixSquare_power poly hp (matrixSquare odd) (2 * m) hE
    have a1 := apply_bit poly (matrixSquare odd) (2 * m) crc1 len2 hE hc
    have c1 : (crcStep poly)^[2 * m * (len2 % 2)] crc1 < 2 ^ 64 :=
      crcStep_iterate_lt poly hp _ _ hc
    have a2 := apply_bit poly (matrixSquare (matrixSquare odd)) (2 * (2 * m))
      ((crcStep poly)^[2 * m * (len2 % 2)] crc1) (len2 / 2) hO c1
    rw [← Function.iterate_add_apply] at a2
    have c2 := crcStep_iterate_lt poly hp
      (2 * (2 * m) * (len2 / 2 % 2) + 2 * m * (len2 % 2)) crc1 hc
    rw [combineLoop]
    simp only [shr_one]
    rw [a1, a2]
    by_cases h1 : len2 / 2 = 0
    · rw [if_pos h1]
      have e : len2 % 2 = len2 := by omega
      rw [e]
    · rw [if_neg h1]
      by_cases h2 : len2 / 2 / 2 = 0
      · rw [if_pos h2]
        have e : len2 = 2 * (len2 / 2 % 2) + len2 % 2 := by omega
        congr 2
        generalize len2 / 2 % 2 = b at e
        generalize len2 % 2 = c at e
        subst e
        ring
      · rw [if_neg h2]
        have hf : 0 < fuel := by
          rcases Nat.eq_zero_or_pos fuel with h | h
          · subst h
            norm_num at hlen
            omega
          · exact h
        have hl : len2 / 2 / 2 < 4 ^ fuel := by
          rw [Nat.pow_succ] at hlen
          omega
        rw [ih _ _ _ _ (2 * (2 * m)) hO c2 hf hl, ← Function.iterate_add_apply]
        have e : len2 = 4 * (len2 / 2 / 2) + 2 * (len2 / 2 % 2) + len2 % 2 := by omega
        congr 2
        generalize len2 / 2 / 2 = q at e
        generalize len2 / 2 % 2 = b at e
        generalize len2 % 2 = c at e
        subst e
        ring

/-- The ladder of `CombineCRC64` applies the zero-bit step `8 * len2` times. -/
theorem CombineCRC64_eq_iterate (poly crc1 crc2 : Nat) (len2 : Int)
    (hp : poly < 2 ^ 64) (hc : crc1 < 2 ^ 64) (h0 : 0 ≤ len2) (hl : len2 < 2 ^ 63) :
    CombineCRC64 poly crc1 crc2 len2 =
      Except.ok ((crcStep poly)^[8 * len2.toNat] crc1 ^^^ crc2) := by
  have hB : ∀ v, v < 2 ^ 64 → matrixMult (zeroBitOperator poly) v = (crcStep poly)^[1] v :=
    fun v hv => matrixMult_zeroBitOperator poly v hv
  have hE := matrixSquare_power poly hp _ 1 hB
  have hO := matrixSquare_power poly hp _ (2 * 1) hE
  have hn : len2.toNat < 4 ^ 32 := by
    norm_num
    omega
  unfold CombineCRC64
  rw [if_neg (by omega)]
  simp only []
  rw [combineLoop_eq poly hp 32 _ _ crc1 len2.toNat (2 * (2 * 1)) hO hc (by norm_num) hn]


/-! ## The reference CRC-64 -/

theorem crcStep_xor (poly a b : Nat) :
    crcStep poly (a ^^^ b) = crcStep poly a ^^^ crcStep poly b := by
  unfold crcStep
  rw [shr_one, shr_one, shr_one, Nat.xor_div_two]
  have hx := @Nat.xor_mod_two_eq_one a b
  generalize a / 2 = x
  generalize b / 2 = y
  by_cases ha : a % 2 = 1 <;> by_cases hb : b % 2 = 1
  · rw [if_neg (by rw [hx]; simp [ha, hb]), if_pos ha, if_pos hb]
    have e : (x ^^^ poly) ^^^ (y ^^^ poly) = (x ^^^ y) ^^^ (poly ^^^ poly) := by ac_rfl
    rw [e, Nat.xor_self]
  · rw [if_pos (by rw [hx]; simp [ha, hb]), if_pos ha, if_neg hb, Nat.xor_zero]
    ac_rfl
  · rw [if_pos (by rw [hx]; simp [ha, hb]), if_neg ha, if_pos hb, Nat.xor_zero]
    ac_rfl
  · rw [if_neg (by rw [hx]; simp [ha, hb]), if_neg ha, if_neg hb]
    simp only [Nat.xor_zero]

theorem crcStep_iterate_xor (poly : Nat) :
    ∀ n a b : Nat,
      (crcStep poly)^[n] (a ^^^ b) = (crcStep poly)^[n] a ^^^ (crcStep poly)^[n] b := by
  intro n
  induction n with
  | zero => intro a b; rfl
  | succ n ih =>
    intro a b
    rw [Function.iterate_succ_apply, Function.iterate_succ_apply, Function.iterate_succ_apply,
      crcStep_xor, ih]

theorem crcUpdate_cons (poly crc b : Nat) (data : List Nat) :
    crcUpdate poly crc (b :: data) = crcUpdate poly (crcByte poly crc b) data := rfl

theorem crcUpdate_append (poly crc : Nat) (A B : List Nat) :
    crcUpdate poly crc (A ++ B) = crcUpdate poly (crcUpdate poly crc A) B := by
  unfold crcUpdate
  rw [List.foldl_append]

/-- The register update is affine: a change of the starting register passes through
`8 * length` zero-bit steps. -/
theorem crcUpdate_xor (poly : Nat) (data : List Nat) :
    ∀ x y : Nat,
      crcUpdate poly (x ^^^ y) data =
        crcUpdate poly x data ^^^ (crcStep poly)^[8 * data.length] y := by
  induction data with
  | nil => intro x y; rfl
  | cons b bs ih =>
    intro x y
    rw [crcUpdate_cons, crcUpdate_cons]
    have e : crcByte poly (x ^^^ y) b = crcByte poly x b ^^^ (crcStep poly)^[8] y := by
      unfold crcByte
      rw [← crcStep_iterate_xor]
      congr 1
      ac_rfl
    rw [e, ih, ← Function.iterate_add_apply, List.length_cons]
    congr 2

theorem crcByte_lt (poly crc b : Nat) (hp : poly < 2 ^ 64) (hc : crc < 2 ^ 64)
    (hb : b < 256) : crcByte poly crc b < 2 ^ 64 := by
  unfold crcByte
  apply crcStep_iterate_lt poly hp
  exact Nat.xor_lt_two_pow hc (Nat.lt_of_lt_of_le hb (by norm_num))

theorem crcUpdate_lt (poly : Nat) (hp : poly < 2 ^ 64) (data : List Nat) :
    ∀ crc : Nat, crc < 2 ^ 64 → (∀ b ∈ data, b < 256) → crcUpdate poly crc data < 2 ^ 64 := by
  induction data with
  | nil => intro crc hc _; exact hc
  | cons b bs ih =>
    intro crc hc hb
    rw [crcUpdate_cons]
    exact ih _ (crcByte_lt poly crc b hp hc (hb b (List.mem_cons_self b bs)))
      (fun c hc' => hb c (List.mem_cons_of_mem b hc'))

theorem crc64Checksum_lt (poly : Nat) (hp : poly < 2 ^ 64) (data : List Nat)
    (hd : ∀ b ∈ data, b < 256) : crc64Checksum poly data < 2 ^ 64 := by
  unfold crc64Checksum
  have h1 : word64 - 1 < 2 ^ 64 := by
    rw [word64_eq]
    norm_num
  exact Nat.xor_lt_two_pow (crcUpdate_lt poly hp data _ h1 hd) h1

/-- The checksum of a concatenation from the checksums of its parts. -/
theorem crc64Checksum_append (poly : Nat) (A B : List Nat) :
    crc64Checksum poly (A ++ B) =
      (crcStep poly)^[8 * B.length] (crc64Checksum poly A) ^^^ crc64Checksum poly B := by
  unfold crc64Checksum
  rw [crcUpdate_append]
  generalize crcUpdate poly (word64 - 1) A = r
  generalize word64 - 1 = ones
  have e : r = ones ^^^ (r ^^^ ones) := by
    rw [Nat.xor_comm r ones, ← Nat.xor_assoc, Nat.xor_self, Nat.zero_xor]
  conv_lhs => rw [e]
  rw [crcUpdate_xor]
  ac_rfl

/-- The reference checksums on rows of the golden table of `TestCombineCRC64` (the empty
string, "a", "abc", "abcdefghij") and on the strings of `main`. -/
theorem crc64Checksum_golden :
    crc64Checksum ECMA [] = 0 ∧
    crc64Checksum ECMA [97] = 0x330284772e652b05 ∧
    crc64Checksum 0xD800000000000000 [97] = 0x3420000000000000 ∧
    crc64Checksum ECMA [97, 98, 99] = 0x2cd8094a1a277627 ∧
    crc64Checksum ECMA [97, 98, 99, 100, 101, 102, 103, 104, 105, 106] = 0x32093a2ecd5773f4 ∧
    crc64Checksum ECMA [49, 50, 51] = 3468660410647627105 ∧
    crc64Checksum ECMA [52, 53, 54] = 558165746783082364 ∧
    crc64Checksum ECMA [49, 50, 51, 52, 53, 54] = 318318745347147982 := by
  set_option maxRecDepth 100000 in decide

/-- The reference Adler-32 on the empty string and on "abc". -/
theorem adler32Checksum_golden :
    adler32Checksum [] = 1 ∧ adler32Checksum [97, 98, 99] = 0x024d0127 := by
  decide

/-! ## Claims about `CombineCRC64` -/

theorem combineLoop_isSome :
    ∀ (fuel : Nat) (even odd : List Nat) (crc1 len2 : Nat), 0 < fuel → len2 < 4 ^ fuel →
      ∃ r, combineLoop fuel even odd crc1 len2 = some r := by
  intro fuel
  induction fuel with
  | zero => intro _ _ _ _ h; omega
  | succ fuel ih =>
    intro even odd crc1 len2 _ hlen
    rw [combineLoop]
    simp only [shr_one]
    by_cases h1 : len2 / 2 = 0
    · rw [if_pos h1]
      exact ⟨_, rfl⟩
    · rw [if_neg h1]
      by_cases h2 : len2 / 2 / 2 = 0
      · rw [if_pos h2]
        exact ⟨_, rfl⟩
      · rw [if_neg h2]
        have hf : 0 < fuel := by
          rcases Nat.eq_zero_or_pos fuel with h | h
          · subst h
            norm_num at hlen
            omega
          · exact h
        have hl : len2 / 2 / 2 < 4 ^ fuel := by
          rw [Nat.pow_succ] at hlen
          omega
        exact ih _ _ _ _ hf hl

/-- C1: for every 64-bit polynomial and all byte sequences `A` and `B` whose length fits an
`int64`, combining the CRC-64 checksums of `A` and `B` with the length of `B` gives the
CRC-64 checksum of `A ++ B` (reflected, bit-serial, all-ones initial register, final
complement); `A` or `B` may be empty. -/
theorem CombineCRC64_checksum (poly : Nat) (A B : List Nat) (hp : poly < 2 ^ 64)
    (hA : ∀ b ∈ A, b < 256) (hl : (B.length : Int) < 2 ^ 63) :
    CombineCRC64 poly (crc64Checksum poly A) (crc64Checksum poly B) (B.length : Int) =
      Except.ok (crc64Checksum poly (A ++ B)) := by
  rw [CombineCRC64_eq_iterate poly _ _ _ hp (crc64Checksum_lt poly hp A hA)
    (Int.ofNat_nonneg _) hl, crc64Checksum_append, Int.toNat_ofNat]

theorem CombineCRC64_checksum_witness :
    CombineCRC64 ECMA (crc64Checksum ECMA [97, 98, 99, 100])
        (crc64Checksum ECMA [101, 102, 103, 104, 105, 106])
        (([101, 102, 103, 104, 105, 106] : List Nat).length : Int) =
      Except.ok (crc64Checksum ECMA ([97, 98, 99, 100] ++ [101, 102, 103, 104, 105, 106])) :=
  CombineCRC64_checksum ECMA [97, 98, 99, 100] [101, 102, 103, 104, 105, 106] (by decide)
    (by decide) (by decide)

/-- C3: `CombineCRC64` with the ECMA polynomial, `crc1 = 3468660410647627105`,
`crc2 = 558165746783082364` and `len2 = 3` returns `318318745347147982`, and so does
`crc64_combine`, the call made by `main`. -/
theorem CombineCRC64_main_example :
    ECMA = 0xC96C5795D7870F42 ∧
    CombineCRC64 ECMA 3468660410647627105 558165746783082364 3 =
      Except.ok 318318745347147982 ∧
    crc64_combine 3468660410647627105 558165746783082364 3 = Except.ok 318318745347147982 := by
  refine ⟨rfl, ?_, ?_⟩
  · set_option maxRecDepth 1000000 in rfl
  · set_option maxRecDepth 1000000 in rfl

/-- C4: for an `int64` length, `CombineCRC64` fails, with the negative-length panic, if and
only if `len2 < 0`; for every `len2 ≥ 0` it returns a value. -/
theorem CombineCRC64_fails_iff_negative (poly crc1 crc2 : Nat) (len2 : Int)
    (hl : len2 < 2 ^ 63) :
    (CombineCRC64 poly crc1 crc2 len2 = Except.error negativeLength ↔ len2 < 0) ∧
    ((∃ e, CombineCRC64 poly crc1 crc2 len2 = Except.error e) ↔ len2 < 0) ∧
    ((∃ r, CombineCRC64 poly crc1 crc2 len2 = Except.ok r) ↔ 0 ≤ len2) := by
  by_cases h : len2 < 0
  · have e : CombineCRC64 poly crc1 crc2 len2 = Except.error negativeLength := by
      unfold CombineCRC64
      rw [if_pos h]
    rw [e]
    simp [h]
  · have hn : len2.toNat < 4 ^ 32 := by
      norm_num
      omega
    obtain ⟨r, hr⟩ := combineLoop_isSome 32
      (matrixSquare (zeroBitOperator poly))
      (matrixSquare (matrixSquare (zeroBitOperator poly))) crc1 len2.toNat (by norm_num) hn
    have e : CombineCRC64 poly crc1 crc2 len2 = Except.ok (r ^^^ crc2) := by
      unfold CombineCRC64
      rw [if_neg h]
      simp only []
      rw [hr]
    rw [e]
    simp [h]
    omega

theorem CombineCRC64_fails_iff_negative_witness :
    (CombineCRC64 ECMA 1 2 (-1) = Except.error negativeLength ↔ (-1 : Int) < 0) ∧
    ((∃ e, CombineCRC64 ECMA 1 2 (-1) = Except.error e) ↔ (-1 : Int) < 0) ∧
    ((∃ r, CombineCRC64 ECMA 1 2 (-1) = Except.ok r) ↔ (0 : Int) ≤ -1) :=
  CombineCRC64_fails_iff_negative ECMA 1 2 (-1) (by decide)

/-- C7: for 64-bit `poly` and `crc1` and an `int64` length `len2 ≥ 0`, `CombineCRC64` returns
`step^(8 * len2)(crc1) XOR crc2` with `step(v) = (v >> 1) XOR (poly if bit 0 of v is set,
else 0)`; the operator squared `k + 3` times from the base is the operator for `8 * 2 ^ k`
zero bits, so the first squaring in the loop gives the operator for one zero byte. -/
theorem CombineCRC64_ladder (poly crc1 crc2 : Nat) (len2 : Int)
    (hp : poly < 2 ^ 64) (hc : crc1 < 2 ^ 64) (h0 : 0 ≤ len2) (hl : len2 < 2 ^ 63) :
    CombineCRC64 poly crc1 crc2 len2 =
      Except.ok
        ((fun v => (v >>> 1) ^^^ (if v % 2 = 1 then poly else 0))^[8 * len2.toNat] crc1
          ^^^ crc2) ∧
    ∀ k v : Nat, v < 2 ^ 64 →
      matrixMult (matrixSquare^[k + 3] (zeroBitOperator poly)) v =
        (fun v => (v >>> 1) ^^^ (if v % 2 = 1 then poly else 0))^[8 * 2 ^ k] v := by
  have hstep : (fun v => (v >>> 1) ^^^ (if v % 2 = 1 then poly else 0)) = crcStep poly := by
    funext v
    rfl
  rw [hstep]
  refine ⟨CombineCRC64_eq_iterate poly crc1 crc2 len2 hp hc h0 hl, ?_⟩
  have hpow : ∀ k : Nat, ∀ v : Nat, v < 2 ^ 64 →
      matrixMult (matrixSquare^[k] (zeroBitOperator poly)) v = (crcStep poly)^[2 ^ k] v := by
    intro k
    induction k with
    | zero =>
      intro v hv
      exact matrixMult_zeroBitOperator poly v hv
    | succ k ih =>
      intro v hv
      rw [Function.iterate_succ_apply', Nat.pow_succ, Nat.mul_comm]
      exact matrixSquare_power poly hp _ _ ih v hv
  intro k v hv
  rw [hpow (k + 3) v hv]
  congr 1
  rw [Nat.pow_add]
  ring

theorem CombineCRC64_ladder_witness :
    CombineCRC64 ECMA 3468660410647627105 558165746783082364 3 =
      Except.ok
        ((fun v => (v >>> 1) ^^^ (if v % 2 = 1 then ECMA else 0))^[8 * (3 : Int).toNat]
          3468660410647627105 ^^^ 558165746783082364) ∧
    ∀ k v : Nat, v < 2 ^ 64 →
      matrixMult (matrixSquare^[k + 3] (zeroBitOperator ECMA)) v =
        (fun v => (v >>> 1) ^^^ (if v % 2 = 1 then ECMA else 0))^[8 * 2 ^ k] v :=
  CombineCRC64_ladder ECMA 3468660410647627105 558165746783082364 3 (by decide) (by decide)
    (by decide) (by decide)

/-- C10: the base operator has row 0 equal to `poly` and row `n` equal to `1 << (n - 1)` for
`n = 1..63`, and applied to a 64-bit `v` it is the one-zero-bit register step
`(v >> 1) XOR (poly if bit 0 of v is set, else 0)`. -/
theorem zeroBitOperator_is_step (poly v : Nat) (hv : v < 2 ^ 64) :
    (zeroBitOperator poly).length = 64 ∧
    (zeroBitOperator poly).getD 0 0 = poly ∧
    (∀ n, 1 ≤ n → n < 64 → (zeroBitOperator poly).getD n 0 = 1 <<< (n - 1)) ∧
    matrixMult (zeroBitOperator poly) v = (v >>> 1) ^^^ (if v % 2 = 1 then poly else 0) := by
  refine ⟨by rfl, rfl, ?_, matrixMult_zeroBitOperator poly v hv⟩
  intro n h1 h64
  obtain ⟨m, rfl⟩ : ∃ m, n = m + 1 := ⟨n - 1, by omega⟩
  rw [zeroBitOperator_getD_succ poly m (by omega), Nat.shiftLeft_eq, Nat.one_mul,
    Nat.add_sub_cancel]

theorem zeroBitOperator_is_step_witness :
    (zeroBitOperator ECMA).length = 64 ∧
    (zeroBitOperator ECMA).getD 0 0 = ECMA ∧
    (∀ n, 1 ≤ n → n < 64 → (zeroBitOperator ECMA).getD n 0 = 1 <<< (n - 1)) ∧
    matrixMult (zeroBitOperator ECMA) 5 = (5 >>> 1) ^^^ (if 5 % 2 = 1 then ECMA else 0) :=
  zeroBitOperator_is_step ECMA 5 (by decide)

/-! ## Claims about the matrix helpers -/

theorem matrixSquare_length (mat : List Nat) : (matrixSquare mat).length = 64 := by
  unfold matrixSquare
  simp

/-- C11: row `i` of `matrixSquare(mat)` is `matrixMult(mat, mat[i])`, and `matrixSquare`
composes the operator with itself: `matrixMult(matrixSquare(mat), v)` is
`matrixMult(mat, matrixMult(mat, v))` for every matrix and every vector. -/
theorem matrixSquare_composes (mat : List Nat) (v : Nat) :
    (matrixSquare mat).length = 64 ∧
    (∀ i, i < 64 → (matrixSquare mat).getD i 0 = matrixMult mat (mat.getD i 0)) ∧
    matrixMult (matrixSquare mat) v = matrixMult mat (matrixMult mat v) :=
  ⟨matrixSquare_length mat, fun i hi => matrixSquare_getD mat i hi,
    matrixMult_matrixSquare mat v⟩

theorem foldl_range_eq_xorRows (mat : List Nat) (vec : Nat) :
    ∀ k n acc : Nat,
      (List.range' n k).foldl
          (fun acc i => if vec.testBit i then acc ^^^ mat.getD i 0 else acc) acc =
        acc ^^^ xorRows mat k n (vec >>> n) := by
  intro k
  induction k with
  | zero =>
    intro n acc
    show acc = acc ^^^ 0
    rw [Nat.xor_zero]
  | succ k ih =>
    intro n acc
    rw [List.range'_succ, List.foldl_cons, ih]
    show _ = acc ^^^ ((if vec >>> n % 2 = 1 then mat.getD n 0 else 0)
      ^^^ xorRows mat k (n + 1) (vec >>> n / 2))
    rw [← Nat.shiftRight_succ, Nat.testBit_to_div_mod, Nat.shiftRight_eq_div_pow vec n]
    by_cases hb : vec / 2 ^ n % 2 = 1
    · simp only [hb, decide_True, if_true]
      rw [Nat.xor_assoc]
    · simp only [hb, decide_False, if_false, Bool.false_eq_true]
      rw [Nat.zero_xor]

/-- C12: `matrixMult` with its early exit is the full matrix-vector product: the XOR of
`mat[i]` over all `i` in `0..63` such that bit `i` of `vec` is set. -/
theorem matrixMult_eq_fullProduct (mat : List Nat) (vec : Nat) :
    matrixMult mat vec = fullProduct mat vec := by
  unfold fullProduct
  rw [List.range_eq_range', foldl_range_eq_xorRows mat vec 64 0 0, Nat.zero_xor,
    Nat.shiftRight_zero, matrixMult_eq_xorRows]

/-- C13: `matrixMult` is XOR-linear in its vector argument:
`matrixMult(mat, a XOR b) = matrixMult(mat, a) XOR matrixMult(mat, b)` and
`matrixMult(mat, 0) = 0`. -/
theorem matrixMult_linear (mat : List Nat) (a b : Nat) :
    matrixMult mat (a ^^^ b) = matrixMult mat a ^^^ matrixMult mat b ∧
    matrixMult mat 0 = 0 :=
  ⟨matrixMult_xor mat a b, matrixMult_zero mat⟩

/-! ## Empty segments -/

/-- C14: with `len2 = 0` the operator is not applied: `CombineCRC64(poly, crc1, crc2, 0)` is
`crc1 XOR crc2`, and `CombineCRC64(poly, crc1, 0, 0)` is `crc1`. -/
theorem CombineCRC64_len_zero (poly crc1 crc2 : Nat) :
    CombineCRC64 poly crc1 crc2 0 = Except.ok (crc1 ^^^ crc2) ∧
    CombineCRC64 poly crc1 0 0 = Except.ok crc1 := by
  have h : ∀ c : Nat, CombineCRC64 poly crc1 c 0 = Except.ok (crc1 ^^^ c) := by
    intro c
    unfold CombineCRC64
    rw [if_neg (by decide)]
    simp only []
    have e : combineLoop 32 (matrixSquare (zeroBitOperator poly))
        (matrixSquare (matrixSquare (zeroBitOperator poly))) crc1 (0 : Int).toNat =
        some crc1 := by
      show combineLoop (31 + 1) _ _ crc1 0 = some crc1
      rw [combineLoop]
      rfl
    rw [e]
  refine ⟨h crc2, ?_⟩
  rw [h 0, Nat.xor_zero]

theorem combineLoop_crc_zero :
    ∀ (fuel : Nat) (even odd : List Nat) (len2 : Nat), 0 < fuel → len2 < 4 ^ fuel →
      combineLoop fuel even odd 0 len2 = some 0 := by
  intro fuel
  induction fuel with
  | zero => intro _ _ _ h; omega
  | succ fuel ih =>
    intro even odd len2 _ hlen
    rw [combineLoop]
    simp only [shr_one, matrixMult_zero, ite_self]
    by_cases h1 : len2 / 2 = 0
    · rw [if_pos h1]
    · rw [if_neg h1]
      by_cases h2 : len2 / 2 / 2 = 0
      · rw [if_pos h2]
      · rw [if_neg h2]
        have hf : 0 < fuel := by
          rcases Nat.eq_zero_or_pos fuel with h | h
          · subst h
            norm_num at hlen
            omega
          · exact h
        have hl : len2 / 2 / 2 < 4 ^ fuel := by
          rw [Nat.pow_succ] at hlen
          omega
        exact ih _ _ _ hf hl

/-- C15: with `crc1 = 0` the second checksum is returned unchanged:
`CombineCRC64(poly, 0, crc2, len2) = crc2` for every `poly`, every `crc2` and every `int64`
length `len2 ≥ 0`. -/
theorem CombineCRC64_crc_zero (poly crc2 : Nat) (len2 : Int) (h0 : 0 ≤ len2)
    (hl : len2 < 2 ^ 63) :
    CombineCRC64 poly 0 crc2 len2 = Except.ok crc2 := by
  have hn : len2.toNat < 4 ^ 32 := by
    norm_num
    omega
  unfold CombineCRC64
  rw [if_neg (by omega)]
  simp only []
  rw [combineLoop_crc_zero 32 _ _ len2.toNat (by norm_num) hn]
  show Except.ok (0 ^^^ crc2) = Except.ok crc2
  rw [Nat.zero_xor]

theorem CombineCRC64_crc_zero_witness :
    CombineCRC64 ECMA 0 558165746783082364 3 = Except.ok 558165746783082364 :=
  CombineCRC64_crc_zero ECMA 558165746783082364 3 (by decide) (by decide)

/-! ## The rounds of the main loop -/

theorem size_half (n : Nat) (h : 0 < n) : Nat.size n = Nat.size (n / 2) + 1 := by
  have e : Nat.bit (Nat.bodd n) (Nat.div2 n) = n := Nat.bit_decomp n
  have hne : Nat.bit (Nat.bodd n) (Nat.div2 n) ≠ 0 := by
    rw [e]
    omega
  have hs := Nat.size_bit hne
  rw [e, Nat.div2_val] at hs
  exact hs

theorem size_le_one (n : Nat) (h : n / 2 = 0) : max 1 (Nat.size n) = 1 := by
  have h1 : Nat.size n ≤ 1 := Nat.size_le.mpr (by norm_num; omega)
  omega

theorem combineLoopCount_spec :
    ∀ (fuel : Nat) (even odd : List Nat) (crc1 len2 rounds applied : Nat),
      0 < fuel → len2 < 4 ^ fuel →
      ∃ c a, combineLoopCount fuel even odd crc1 len2 rounds applied =
          some (c, rounds + max 1 (Nat.size len2), a) ∧
        combineLoop fuel even odd crc1 len2 = some c ∧
        a ≤ applied + max 1 (Nat.size len2) := by
  intro fuel
  induction fuel with
  | zero => intro _ _ _ _ _ _ h; omega
  | succ fuel ih =>
    intro even odd crc1 len2 rounds applied _ hlen
    rw [combineLoopCount, combineLoop]
    simp only [shr_one]
    generalize (if len2 &&& 1 > 0 then matrixMult (matrixSquare odd) crc1 else crc1) = c1
    have hb1 : (if len2 &&& 1 > 0 then applied + 1 else applied) ≤ applied + 1 := by
      split_ifs <;> omega
    generalize (if len2 &&& 1 > 0 then applied + 1 else applied) = a1 at hb1 ⊢
    by_cases h1 : len2 / 2 = 0
    · rw [if_pos h1, if_pos h1, size_le_one len2 h1]
      exact ⟨c1, a1, rfl, rfl, hb1⟩
    · rw [if_neg h1, if_neg h1]
      generalize (if len2 / 2 &&& 1 > 0 then
        matrixMult (matrixSquare (matrixSquare odd)) c1 else c1) = c2
      have hb2 : (if len2 / 2 &&& 1 > 0 then a1 + 1 else a1) ≤ a1 + 1 := by
        split_ifs <;> omega
      generalize (if len2 / 2 &&& 1 > 0 then a1 + 1 else a1) = a2 at hb2 ⊢
      have s1 := size_half len2 (by omega)
      have s2 := size_half (len2 / 2) (by omega)
      by_cases h2 : len2 / 2 / 2 = 0
      · rw [if_pos h2, if_pos h2]
        rw [h2, Nat.size_zero] at s2
        have hm : max 1 (Nat.size len2) = 2 := by omega
        rw [hm]
        exact ⟨c2, a2, rfl, rfl, by omega⟩
      · rw [if_neg h2, if_neg h2]
        have hf : 0 < fuel := by
          rcases Nat.eq_zero_or_pos fuel with h | h
          · subst h
            norm_num at hlen
            omega
          · exact h
        have hl : len2 / 2 / 2 < 4 ^ fuel := by
          rw [Nat.pow_succ] at hlen
          omega
        have s3 : 0 < Nat.size (len2 / 2 / 2) := Nat.size_pos.mpr (by omega)
        obtain ⟨c, a, e1, e2, e3⟩ := ih (matrixSquare odd) (matrixSquare (matrixSquare odd))
          c2 (len2 / 2 / 2) (rounds + 1 + 1) a2 hf hl
        have hm : rounds + 1 + 1 + max 1 (Nat.size (len2 / 2 / 2)) =
            rounds + max 1 (Nat.size len2) := by omega
        rw [hm] at e1
        exact ⟨c, a, e1, e2, by omega⟩

/-- The counters of the loop on `len2 = 0, 1, 5, 8` and on the largest `int64`: the rounds
are 1, 1, 3, 4 and 63, the applications 0, 1, 2, 1 and 63. -/
theorem combineLoopCount_examples :
    (combineLoopCount 32 (matrixSquare (zeroBitOperator ECMA))
        (matrixSquare (matrixSquare (zeroBitOperator ECMA))) 1 0 0 0).map (fun t => t.2) =
      some (1, 0) ∧
    (combineLoopCount 32 (matrixSquare (zeroBitOperator ECMA))
        (matrixSquare (matrixSquare (zeroBitOperator ECMA))) 1 1 0 0).map (fun t => t.2) =
      some (1, 1) ∧
    (combineLoopCount 32 (matrixSquare (zeroBitOperator ECMA))
        (matrixSquare (matrixSquare (zeroBitOperator ECMA))) 1 5 0 0).map (fun t => t.2) =
      some (3, 2) ∧
    (combineLoopCount 32 (matrixSquare (zeroBitOperator ECMA))
        (matrixSquare (matrixSquare (zeroBitOperator ECMA))) 1 8 0 0).map (fun t => t.2) =
      some (4, 1) ∧
    (combineLoopCount 32 (matrixSquare (zeroBitOperator ECMA))
        (matrixSquare (matrixSquare (zeroBitOperator ECMA))) 1 (2 ^ 63 - 1) 0 0).map
        (fun t => t.2) =
      some (63, 63) := by
  refine ⟨by rfl, by rfl, by rfl, by rfl, by rfl⟩

/-- C16: for an `int64` length `len2 ≥ 0` the main loop of `CombineCRC64` terminates: every
right shift of a positive `len2` makes it smaller, the loop leaves through a `break` after
exactly `max(1, bitlength(len2))` rounds, each with one squaring and at most one application
of the operator, and so after at most 63 rounds. -/
theorem combineLoop_rounds (poly crc1 crc2 : Nat) (len2 : Int) (h0 : 0 ≤ len2)
    (hl : len2 < 2 ^ 63) :
    (∀ n : Nat, 0 < n → n >>> 1 < n) ∧
    ∃ c rounds applied,
      combineLoopCount 32 (matrixSquare (zeroBitOperator poly))
          (matrixSquare (matrixSquare (zeroBitOperator poly))) crc1 len2.toNat 0 0 =
        some (c, rounds, applied) ∧
      combineLoop 32 (matrixSquare (zeroBitOperator poly))
          (matrixSquare (matrixSquare (zeroBitOperator poly))) crc1 len2.toNat = some c ∧
      CombineCRC64 poly crc1 crc2 len2 = Except.ok (c ^^^ crc2) ∧
      rounds = max 1 (Nat.size len2.toNat) ∧ applied ≤ rounds ∧ rounds ≤ 63 := by
  refine ⟨fun n hn => by rw [shr_one]; omega, ?_⟩
  have hn : len2.toNat < 4 ^ 32 := by
    norm_num
    omega
  obtain ⟨c, a, e1, e2, e3⟩ := combineLoopCount_spec 32
    (matrixSquare (zeroBitOperator poly))
    (matrixSquare (matrixSquare (zeroBitOperator poly))) crc1 len2.toNat 0 0
    (by norm_num) hn
  have hs : Nat.size len2.toNat ≤ 63 := Nat.size_le.mpr (by norm_num; omega)
  refine ⟨c, 0 + max 1 (Nat.size len2.toNat), a, e1, e2, ?_, by omega, by omega, by omega⟩
  unfold CombineCRC64
  rw [if_neg (by omega)]
  simp only []
  rw [e2]

theorem combineLoop_rounds_witness :
    (∀ n : Nat, 0 < n → n >>> 1 < n) ∧
    ∃ c rounds applied,
      combineLoopCount 32 (matrixSquare (zeroBitOperator ECMA))
          (matrixSquare (matrixSquare (zeroBitOperator ECMA))) 3468660410647627105
          (3 : Int).toNat 0 0 =
        some (c, rounds, applied) ∧
      combineLoop 32 (matrixSquare (zeroBitOperator ECMA))
          (matrixSquare (matrixSquare (zeroBitOperator ECMA))) 3468660410647627105
          (3 : Int).toNat = some c ∧
      CombineCRC64 ECMA 3468660410647627105 558165746783082364 3 =
        Except.ok (c ^^^ 558165746783082364) ∧
      rounds = max 1 (Nat.size (3 : Int).toNat) ∧ applied ≤ rounds ∧ rounds ≤ 63 :=
  combineLoop_rounds ECMA 3468660410647627105 558165746783082364 3 (by decide) (by decide)

/-! ## Adjacent segments -/

/-- C17: `CombineCRC64` is associative over adjacent segments: for 64-bit `poly`, `a`, `b`
and lengths `lb, lc ≥ 0` with `lb + lc ≤ 2^63 - 1`, combining `a` with `b` and the result
with `c` gives the same value as combining `a` with the combination of `b` and `c` over the
length `lb + lc`. -/
theorem CombineCRC64_assoc (poly a b c : Nat) (lb lc : Int)
    (hp : poly < 2 ^ 64) (ha : a < 2 ^ 64) (hb : b < 2 ^ 64)
    (hlb : 0 ≤ lb) (hlc : 0 ≤ lc) (hsum : lb + lc ≤ 2 ^ 63 - 1) :
    ∃ x y r,
      CombineCRC64 poly a b lb = Except.ok x ∧ CombineCRC64 poly x c lc = Except.ok r ∧
      CombineCRC64 poly b c lc = Except.ok y ∧
      CombineCRC64 poly a y (lb + lc) = Except.ok r := by
  have hx : (crcStep poly)^[8 * lb.toNat] a ^^^ b < 2 ^ 64 :=
    Nat.xor_lt_two_pow (crcStep_iterate_lt poly hp _ a ha) hb
  refine ⟨_, _, _, CombineCRC64_eq_iterate poly a b lb hp ha hlb (by omega),
    CombineCRC64_eq_iterate poly _ c lc hp hx hlc (by omega),
    CombineCRC64_eq_iterate poly b c lc hp hb hlc (by omega), ?_⟩
  rw [CombineCRC64_eq_iterate poly a _ (lb + lc) hp ha (by omega) (by omega),
    crcStep_iterate_xor, ← Function.iterate_add_apply, Nat.xor_assoc]
  have e : 8 * (lb + lc).toNat = 8 * lc.toNat + 8 * lb.toNat := by omega
  rw [e]

theorem CombineCRC64_assoc_witness :
    ∃ x y r,
      CombineCRC64 ECMA 3468660410647627105 558165746783082364 3 = Except.ok x ∧
      CombineCRC64 ECMA x 7 5 = Except.ok r ∧
      CombineCRC64 ECMA 558165746783082364 7 5 = Except.ok y ∧
      CombineCRC64 ECMA 3468660410647627105 y (3 + 5) = Except.ok r :=
  CombineCRC64_assoc ECMA 3468660410647627105 558165746783082364 7 3 5 (by decide)
    (by decide) (by decide) (by decide) (by decide) (by decide)

/-- The value of `CombineAdler32` on inputs whose four halves are reduced. -/
theorem CombineAdler32_value (adler1 adler2 : Nat) (len2 : Int) (hlen : 0 ≤ len2)
    (h1l : adler1 % 65536 < 65521) (h1h : adler1 / 65536 < 65521)
    (h2l : adler2 % 65536 < 65521) (h2h : adler2 / 65536 < 65521) :
    CombineAdler32 adler1 adler2 len2 =
      Except.ok
        (((len2.toNat % 65521) * (adler1 % 65536) % 65521 + adler1 / 65536 + adler2 / 65536
            + (65521 - len2.toNat % 65521)) % 65521 * 65536
          + (adler1 % 65536 + adler2 % 65536 + 65520) % 65521) := by
  have e1 := adlerSum1_eq adler1 adler2 (by omega)
  have e2 := adlerSum2_eq adler1 adler2 len2 hlen h1h h2h
  have b1 : adlerSum1 adler1 adler2 < 65521 := by
    rw [e1]
    exact Nat.mod_lt _ (by norm_num)
  have b2 : adlerSum2 adler1 adler2 len2 < 65521 := by
    rw [e2]
    exact Nat.mod_lt _ (by norm_num)
  have hs : shl32 (adlerSum2 adler1 adler2 len2) 16 = adlerSum2 adler1 adler2 len2 * 65536 := by
    unfold shl32
    rw [Nat.shiftLeft_eq, word32_eq]
    omega
  rw [CombineAdler32_ok adler1 adler2 len2 hlen, hs, or_shl16 _ _ (by omega), e1, e2]

theorem adler_high_assoc (u v w m n xh yh zh : Nat) :
    ((u + v + m * 65520) % 65521
        + (w % 65521 + xh + yh + (65521 - n % 65521)) % 65521 + zh
        + (65521 - m % 65521)) % 65521 =
      ((w + u) % 65521 + xh
        + (v % 65521 + yh + zh + (65521 - m % 65521)) % 65521
        + (65521 - (n + m) % 65521)) % 65521 := by
  generalize hk1 : 65521 - n % 65521 = k1
  generalize hk2 : 65521 - m % 65521 = k2
  generalize hk3 : 65521 - (n + m) % 65521 = k3
  have e1 : k1 + n % 65521 = 65521 := by omega
  have e3 : k3 + (n + m) % 65521 = 65521 := by omega
  have z : ((65521 : Nat) : ZMod 65521) = 0 := ZMod.natCast_self 65521
  have c1 := congrArg (Nat.cast : Nat → ZMod 65521) e1
  have c3 := congrArg (Nat.cast : Nat → ZMod 65521) e3
  push_cast [ZMod.natCast_mod] at c1 c3 z
  apply (ZMod.natCast_eq_natCast_iff' _ _ 65521).mp
  push_cast [ZMod.natCast_mod]
  linear_combination c1 - c3 + (m : ZMod 65521) * z

/-- C18: `CombineAdler32` is associative over adjacent segments on reduced inputs: for
`x`, `y`, `z` whose halves are below 65521 and lengths `ly, lz ≥ 0`, combining `x` with `y`
and the result with `z` gives the same value as combining `x` with the combination of `y`
and `z` over the length `ly + lz`. -/
theorem CombineAdler32_assoc (x y z : Nat) (ly lz : Int) (hly : 0 ≤ ly) (hlz : 0 ≤ lz)
    (hxl : x &&& 0xffff < 65521) (hxh : x >>> 16 < 65521)
    (hyl : y &&& 0xffff < 65521) (hyh : y >>> 16 < 65521)
    (hzl : z &&& 0xffff < 65521) (hzh : z >>> 16 < 65521) :
    ∃ u v r,
      CombineAdler32 x y ly = Except.ok u ∧ CombineAdler32 u z lz = Except.ok r ∧
      CombineAdler32 y z lz = Except.ok v ∧ CombineAdler32 x v (ly + lz) = Except.ok r := by
  rw [and_ffff] at hxl hyl hzl
  rw [shr16] at hxh hyh hzh
  obtain ⟨n, rfl⟩ := Int.eq_ofNat_of_zero_le hly
  obtain ⟨m, rfl⟩ := Int.eq_ofNat_of_zero_le hlz
  have hM : (0 : Nat) < 65521 := by norm_num
  have eu := CombineAdler32_value x y (n : Int) hly hxl hxh hyl hyh
  have ev := CombineAdler32_value y z (m : Int) hlz hyl hyh hzl hzh
  rw [Int.toNat_ofNat, Nat.mod_mul_mod] at eu ev
  -- the two halves of the inner results
  generalize hL12 : (x % 65536 + y % 65536 + 65520) % 65521 = L12 at eu
  generalize hH12 : (n * (x % 65536) % 65521 + x / 65536 + y / 65536
    + (65521 - n % 65521)) % 65521 = H12 at eu
  generalize hL23 : (y % 65536 + z % 65536 + 65520) % 65521 = L23 at ev
  generalize hH23 : (m * (y % 65536) % 65521 + y / 65536 + z / 65536
    + (65521 - m % 65521)) % 65521 = H23 at ev
  have bL12 : L12 < 65521 := by rw [← hL12]; exact Nat.mod_lt _ hM
  have bH12 : H12 < 65521 := by rw [← hH12]; exact Nat.mod_lt _ hM
  have bL23 : L23 < 65521 := by rw [← hL23]; exact Nat.mod_lt _ hM
  have bH23 : H23 < 65521 := by rw [← hH23]; exact Nat.mod_lt _ hM
  have el := CombineAdler32_value (H12 * 65536 + L12) z (m : Int) hlz (by omega) (by omega)
    hzl hzh
  have er := CombineAdler32_value x (H23 * 65536 + L23) ((n : Int) + (m : Int))
    (by omega) hxl hxh (by omega) (by omega)
  have t1 : (H12 * 65536 + L12) % 65536 = L12 := by omega
  have t2 : (H12 * 65536 + L12) / 65536 = H12 := by omega
  have t3 : (H23 * 65536 + L23) % 65536 = L23 := by omega
  have t4 : (H23 * 65536 + L23) / 65536 = H23 := by omega
  have t5 : ((n : Int) + (m : Int)).toNat = n + m := by omega
  rw [Int.toNat_ofNat, Nat.mod_mul_mod, t1, t2] at el
  rw [t5, Nat.mod_mul_mod, t3, t4] at er
  refine ⟨_, _, _, eu, el, ev, ?_⟩
  rw [er]
  -- products modulo 65521
  have p1 : m * L12 % 65521 =
      (m * (x % 65536) + m * (y % 65536) + m * 65520) % 65521 := by
    rw [← hL12, Nat.mul_mod, Nat.mod_mod, ← Nat.mul_mod, Nat.mul_add, Nat.mul_add]
  have p2 : (n + m) * (x % 65536) = n * (x % 65536) + m * (x % 65536) := by ring
  rw [p1, p2]
  rw [← hL12, ← hH12, ← hL23, ← hH23]
  generalize n * (x % 65536) = w
  generalize m * (x % 65536) = u
  generalize m * (y % 65536) = v
  have g1 : ((x % 65536 + y % 65536 + 65520) % 65521 + z % 65536 + 65520) % 65521 =
      (x % 65536 + (y % 65536 + z % 65536 + 65520) % 65521 + 65520) % 65521 := by omega
  have g2 := adler_high_assoc u v w m n (x / 65536) (y / 65536) (z / 65536)
  rw [g1, g2]

theorem CombineAdler32_assoc_witness :
    ∃ u v r,
      CombineAdler32 38600999 19267851 2 = Except.ok u ∧
      CombineAdler32 u 6422626 1 = Except.ok r ∧
      CombineAdler32 19267851 6422626 1 = Except.ok v ∧
      CombineAdler32 38600999 v (2 + 1) = Except.ok r :=
  CombineAdler32_assoc 38600999 19267851 6422626 2 1 (by decide) (by decide) (by decide)
    (by decide) (by decide) (by decide) (by decide) (by decide)

/-- C19: the value 1, the Adler-32 checksum of the empty string, is a two-sided identity of
`CombineAdler32` on reduced inputs: `CombineAdler32(a, 1, 0) = a`, and
`CombineAdler32(1, a, len2) = a` for every `len2 ≥ 0`. -/
theorem CombineAdler32_identity (a : Nat) (len2 : Int) (hlen : 0 ≤ len2)
    (hl : a &&& 0xffff < 65521) (hh : a >>> 16 < 65521) :
    CombineAdler32 a 1 0 = Except.ok a ∧ CombineAdler32 1 a len2 = Except.ok a := by
  rw [and_ffff] at hl
  rw [shr16] at hh
  constructor
  · rw [CombineAdler32_value a 1 0 (by decide) hl hh (by decide) (by decide)]
    apply congrArg Except.ok
    have e : (0 : Int).toNat % 65521 * (a % 65536) = 0 := by
      rw [show (0 : Int).toNat % 65521 = 0 from rfl, Nat.zero_mul]
    rw [e]
    have e0 : (0 : Int).toNat = 0 := rfl
    rw [e0]
    omega
  · rw [CombineAdler32_value 1 a len2 hlen (by decide) (by decide) hl hh]
    apply congrArg Except.ok
    have e : len2.toNat % 65521 * (1 % 65536) = len2.toNat % 65521 := by
      rw [show (1 : Nat) % 65536 = 1 from rfl, Nat.mul_one]
    rw [e]
    omega

theorem CombineAdler32_identity_witness :
    CombineAdler32 38600999 1 0 = Except.ok 38600999 ∧
    CombineAdler32 1 38600999 7 = Except.ok 38600999 :=
  CombineAdler32_identity 38600999 7 (by decide) (by decide) (by decide)

/-- C20: the 32-bit multiplication in `CombineAdler32` never wraps: for every `adler1` and
every `len2 ≥ 0`, `rem = len2 mod 65521`, `rem * (adler1 & 0xffff) < 2^32`, the `uint32`
product is the exact product, and `sum2` after `sum2 %= mod` is
`(len2 * low16(adler1)) mod 65521`. -/
theorem adlerProd_exact (adler1 adler2 : Nat) (len2 : Int) (hlen : 0 ≤ len2) :
    adlerRem len2 = len2.toNat % 65521 ∧
    adlerRem len2 * (adler1 &&& 0xffff) < 2 ^ 32 ∧
    mul32 (adlerRem len2) (adler1 &&& 0xffff) = adlerRem len2 * (adler1 &&& 0xffff) ∧
    adlerProd adler1 len2 = (len2.toNat * (adler1 &&& 0xffff)) % 65521 ∧
    adlerSum2Raw adler1 adler2 len2 =
      add32 (adlerProd adler1 len2)
        (sub32 (add32 (add32 (adler1 >>> 16) (adler2 >>> 16)) adlerMod) (adlerRem len2)) := by
  have hr := adlerRem_eq len2 hlen
  have hlt : adlerRem len2 * (adler1 &&& 0xffff) < 2 ^ 32 := by
    rw [hr, and_ffff]
    have h1 : len2.toNat % 65521 ≤ 65520 := by omega
    have h2 : adler1 % 65536 ≤ 65535 := by omega
    have h3 := Nat.mul_le_mul h1 h2
    norm_num
    omega
  have hmul : mul32 (adlerRem len2) (adler1 &&& 0xffff) =
      adlerRem len2 * (adler1 &&& 0xffff) := by
    unfold mul32 word32
    exact Nat.mod_eq_of_lt hlt
  refine ⟨hr, hlt, hmul, ?_, rfl⟩
  unfold adlerProd adlerMod
  rw [hmul, hr, Nat.mod_mul_mod]

theorem adlerProd_exact_witness :
    adlerRem 131042 = (131042 : Int).toNat % 65521 ∧
    adlerRem 131042 * (0xffffffff &&& 0xffff) < 2 ^ 32 ∧
    mul32 (adlerRem 131042) (0xffffffff &&& 0xffff) =
      adlerRem 131042 * (0xffffffff &&& 0xffff) ∧
    adlerProd 0xffffffff 131042 = ((131042 : Int).toNat * (0xffffffff &&& 0xffff)) % 65521 ∧
    adlerSum2Raw 0xffffffff 19267851 131042 =
      add32 (adlerProd 0xffffffff 131042)
        (sub32 (add32 (add32 (0xffffffff >>> 16) (19267851 >>> 16)) adlerMod)
          (adlerRem 131042)) :=
  adlerProd_exact 0xffffffff 19267851 131042 (by decide)

end HashMerge
